import Mathlib

/-!
Verification of the anki-stats command-line tool (src/main.go).

The log-file merger (`appendToTOML`), the card classifier (`getCardInfo`,
`getFieldValue`, `getCardStatus`) and the RPC response handling
(`invokeAnkiConnect`) are embedded as pure Lean functions over lists of
characters and decoded JSON values, and the spec's claims about them are
settled as theorems below.
-/

namespace AnkiStats

/-- File content is modelled as a list of characters.  Every search needle
used by the code (`[YYYY-MM-DD]` and `"\n["`) is pure ASCII, and an ASCII
byte can never occur inside a multi-byte UTF-8 sequence, so Go's byte-level
`bytes.Index` coincides with character-level search on this model. -/
abbrev Bytes := List Char

/-- JSON values as decoded by Go's `encoding/json` into `interface{}`:
numbers decode to `float64` (modelled as rationals), objects to string-keyed
maps (modelled as association lists with unique keys). -/
inductive JsonVal where
  | num (q : ℚ)
  | str (s : String)
  | obj (fields : List (String × JsonVal))
  | arr (elems : List JsonVal)
  | bool (b : Bool)
  | null

/-- The four card lifecycle statuses (src/main.go lines 30-35). -/
inductive CardStatus where
  | new | learning | review | relearning
deriving DecidableEq

/-- The rendered text of a status value. -/
def statusStr : CardStatus → Bytes
  | .new => ['n', 'e', 'w']
  | .learning => ['l', 'e', 'a', 'r', 'n', 'i', 'n', 'g']
  | .review => ['r', 'e', 'v', 'i', 'e', 'w']
  | .relearning => ['r', 'e', 'l', 'e', 'a', 'r', 'n', 'i', 'n', 'g']

/-- Go map indexing `m[key]` on a decoded JSON object.  Go map keys are
unique, so the association-list lookup returns the value of the key. -/
def lookupKV (k : String) : List (String × JsonVal) → Option JsonVal
  | [] => none
  | (k', v) :: t => if k' = k then some v else lookupKV k t

/-- Go's `int(f)` conversion on a `float64`: truncation toward zero. -/
def truncQ (q : ℚ) : ℤ := if q < 0 then -((-q).floor) else q.floor

/-- The queue/type fallback of `getCardStatus` (src/main.go lines 151-160):
the numeric `queue` field if present, otherwise the numeric `type` field,
otherwise nothing.  A present but non-numeric value fails Go's `.(float64)`
type assertion exactly like an absent key. -/
def queueOrType (cardInfo : List (String × JsonVal)) : Option ℚ :=
  match lookupKV "queue" cardInfo with
  | some (.num q) => some q
  | _ =>
    match lookupKV "type" cardInfo with
    | some (.num t) => some t
    | _ => none

/-- The `switch int(queue)` block of `getCardStatus`
(src/main.go lines 162-174). -/
def switchStatus (n : ℤ) : CardStatus :=
  match n with
  | 0 => .new
  | 1 => .learning
  | 2 => .review
  | 3 => .relearning
  | _ => .review

/-- `getCardStatus` (src/main.go lines 150-175). -/
def getCardStatus (cardInfo : List (String × JsonVal)) : CardStatus :=
  match queueOrType cardInfo with
  | none => .review
  | some q => switchStatus (truncQ q)

/-- `getFieldValue` (src/main.go lines 139-148): the string under `value`
inside the object stored at `fieldName`, or `""` on any shape mismatch. -/
def getFieldValue (fields : List (String × JsonVal)) (fieldName : String) : String :=
  match lookupKV fieldName fields with
  | some (.obj fieldMap) =>
    match lookupKV "value" fieldMap with
    | some (.str v) => v
    | _ => ""
  | _ => ""

/-- The word-extraction step of `getCardInfo` (src/main.go lines 116-131):
take the `Word` field's value; if that is empty, fall back to the first
field in iteration order (modelled by the list order) whose value is
non-empty; `none` models the `no usable field found` error that makes the
caller skip the card. -/
def extractWord (fields : List (String × JsonVal)) : Option String :=
  let wordValue := getFieldValue fields "Word"
  if wordValue = "" then
    match fields.find? (fun p => getFieldValue fields p.1 != "") with
    | some p => some (getFieldValue fields p.1)
    | none => none
  else
    some wordValue

/-- The status table exactly as the claim words it: truncated code 0 to new,
1 to learning, 2 to review, 3 to relearning, any other numeric code to
review. -/
def statusOfCodeSpec (n : ℤ) : CardStatus :=
  if n = 0 then .new
  else if n = 1 then .learning
  else if n = 2 then .review
  else if n = 3 then .relearning
  else .review

/-- The status derivation exactly as the claim words it: read numeric
`queue`; if absent or not numeric fall back to numeric `type` (this cascade
is `queueOrType`); if neither is present and numeric return review;
otherwise apply the if-then-else table to the truncated value. -/
def classifyStatusSpec (cardInfo : List (String × JsonVal)) : CardStatus :=
  match queueOrType cardInfo with
  | none => .review
  | some q => statusOfCodeSpec (truncQ q)

/-! ### The dated log merger (`appendToTOML`) -/

/-- `fmt.Sprintf("[%s]", today)` (src/main.go line 189). -/
def dateHeader (today : Bytes) : Bytes := '[' :: today ++ [']']

/-- `strings.ReplaceAll(word, "\"", "\\\"")` (src/main.go line 194): a
backslash is inserted before every double quote. -/
def escape : Bytes → Bytes
  | [] => []
  | c :: t => if c = '"' then '\\' :: '"' :: escape t else c :: escape t

/-- The fixed tail of a rendered entry line: `" = "<status>"`. -/
def entrySuffix (s : CardStatus) : Bytes :=
  '"' :: ' ' :: '=' :: ' ' :: '"' :: statusStr s ++ ['"']

/-- One rendered entry line `"<escaped word>" = "<status>"`
(src/main.go line 195, without the trailing newline). -/
def entryLine (w : Bytes) (s : CardStatus) : Bytes :=
  '"' :: (escape w ++ entrySuffix s)

/-- The entry lines of the fresh section, each terminated by a newline
(src/main.go lines 193-196, in map iteration order, modelled by the list
order). -/
def renderEntries : List (Bytes × CardStatus) → Bytes
  | [] => []
  | p :: t => entryLine p.1 p.2 ++ '\n' :: renderEntries t

/-- The freshly rendered section `newBlock`: header line then one line per
entry (src/main.go lines 191-197). -/
def renderSection (today : Bytes) (entries : List (Bytes × CardStatus)) : Bytes :=
  dateHeader today ++ '\n' :: renderEntries entries

/-- `bytes.Index`: the position of the first occurrence of `needle`, or
`none` when it does not occur. -/
def findSub (needle : Bytes) : Bytes → Option ℕ
  | [] => if needle = [] then some 0 else none
  | c :: t => if needle <+: c :: t then some 0 else (findSub needle t).map (· + 1)

/-- `bytes.TrimRight(s, "\n")`. -/
def trimRightNl (s : Bytes) : Bytes := (s.reverse.dropWhile (· == '\n')).reverse

/-- The pure content transformation of `appendToTOML`
(src/main.go lines 188-218): find the first occurrence of the substring
`[today]`; if found, delete from there up to but excluding the next `"\n["`
or to end of file and trim trailing newlines; then make sure the content
ends in a newline, append the fresh section, and normalize the result to
exactly one trailing newline. -/
def mergeContent (existing today : Bytes) (entries : List (Bytes × CardStatus)) : Bytes :=
  let hdr := dateHeader today
  let newBlock := renderSection today entries
  let existing1 :=
    match findSub hdr existing with
    | none => existing
    | some start =>
      let searchFrom := start + hdr.length
      let stop :=
        match findSub ['\n', '['] (existing.drop searchFrom) with
        | none => existing.length
        | some next => searchFrom + next + 1
      trimRightNl (existing.take start ++ existing.drop stop)
  let existing2 :=
    match existing1.getLast? with
    | some c => if c = '\n' then existing1 else existing1 ++ ['\n']
    | none => existing1
  trimRightNl (existing2 ++ newBlock) ++ ['\n']

/-- The read step of `appendToTOML` (src/main.go lines 183-186): a missing
file (`os.IsNotExist`) leaves `existing` nil, i.e. is treated as empty
content, not as an error. -/
def mergeFile (existing : Option Bytes) (today : Bytes)
    (entries : List (Bytes × CardStatus)) : Bytes :=
  mergeContent (existing.getD []) today entries

/-! ### A model of well-formed log files, for the frame/idempotence claims -/

/-- One section of the log file as described by the spec's data model:
a `[date]` header line followed by its entry lines. -/
structure LogSection where
  date : Bytes
  lines : List Bytes
deriving DecidableEq

/-- Lines rendered one after another, each terminated by a newline. -/
def renderLines : List Bytes → Bytes
  | [] => []
  | l :: t => l ++ '\n' :: renderLines t

/-- The rendered text of one section. -/
def renderSec (s : LogSection) : Bytes := dateHeader s.date ++ '\n' :: renderLines s.lines

/-- The rendered text of a whole log file. -/
def renderFile : List LogSection → Bytes
  | [] => []
  | s :: t => renderSec s ++ renderFile t

/-! ### The RPC client response handling (`invokeAnkiConnect`) -/

/-- What the JSON decoder makes of the HTTP response body: either it is not
a valid JSON envelope, or it decodes to `{result, error}`. -/
inductive RpcBody where
  | malformed
  | envelope (result : JsonVal) (error : Option String)

/-- An HTTP response as `http.Post` returns it: a status code and a body. -/
structure HttpResponse where
  status : ℕ
  body : RpcBody

/-- The response handling of `invokeAnkiConnect` (src/main.go lines 73-89):
`none` models a transport error from `http.Post`.  The status code is
carried in the response but the code never inspects it. -/
def invokeAnkiConnect (resp : Option HttpResponse) : Except String JsonVal :=
  match resp with
  | none => .error "failed to send request to AnkiConnect"
  | some r =>
    match r.body with
    | .malformed => .error "failed to decode response"
    | .envelope result none => .ok result
    | .envelope _ (some e) => .error ("AnkiConnect error: " ++ e)

/-! ### Spec-modelled reader for the round-trip claim -/

/-- Modelled from the spec: split file content into its lines; a final
newline terminates the last line (the repository has no reader for the log
file, so the line-oriented view follows the data model of spec §3). -/
def linesOf : Bytes → List Bytes
  | [] => []
  | c :: t =>
    if c = '\n' then [] :: linesOf t
    else
      match linesOf t with
      | [] => [[c]]
      | l :: ls => (c :: l) :: ls

/-- Modelled from the spec: the inverse of the `\"` escaping, replacing each
(leftmost, non-overlapping) `\"` by `"`. -/
def unescape : Bytes → Bytes
  | [] => []
  | [c] => [c]
  | c :: d :: t =>
    if c = '\\' ∧ d = '"' then '"' :: unescape t else c :: unescape (d :: t)

/-- All status values, in the order the parser tries them. -/
def statusList : List CardStatus := [.new, .learning, .review, .relearning]

/-- Modelled from the spec: parse one entry line `"<escaped word>" = "<status>"`
back into its (word, status) pair.  The repository never reads the log file
back, so this inverse follows the entry-line format of spec §4.3. -/
def parseEntryLine (line : Bytes) : Option (Bytes × CardStatus) :=
  statusList.findSome? fun s =>
    let suf := entrySuffix s
    if line.head? = some '"' ∧ suf <:+ line ∧ suf.length + 1 ≤ line.length then
      some (unescape ((line.drop 1).take (line.length - 1 - suf.length)), s)
    else none

/-- Modelled from the spec: locate the section for `today` by its exact
header line and collect the entry lines that belong to it (everything up to
the next header line or end of file), per spec §4.3. -/
def locateSection (today : Bytes) (content : Bytes) : Option (List Bytes) :=
  match (linesOf content).findIdx? (· == dateHeader today) with
  | none => none
  | some i =>
    some (((linesOf content).drop (i + 1)).takeWhile (fun l => !(l.head? == some '[')))

/-- The round-trip of claim C7: render the entries into a section on an
empty file, then re-locate the section by its header and parse its entry
lines. -/
def roundTrip (today : Bytes) (entries : List (Bytes × CardStatus)) :
    Option (List (Bytes × CardStatus)) :=
  (locateSection today (mergeContent [] today entries)).bind fun ls =>
    ls.mapM parseEntryLine

/-! ### Basic list helpers -/

theorem head?_append_left {α : Type} (l₁ l₂ : List α) (h : l₁ ≠ []) :
    (l₁ ++ l₂).head? = l₁.head? := by
  cases l₁ with
  | nil => exact absurd rfl h
  | cons a t => rfl

theorem dropWhile_eq_self_of_head {α : Type} (p : α → Bool) (l : List α)
    (h : ∀ c, l.head? = some c → ¬ p c) : l.dropWhile p = l := by
  cases l with
  | nil => rfl
  | cons a t => exact List.dropWhile_cons_of_neg (h a rfl)

theorem head?_dropWhile_false {α : Type} (p : α → Bool) :
    ∀ (l : List α) (a : α), (l.dropWhile p).head? = some a → p a = false := by
  intro l
  induction l with
  | nil => intro a h; simp at h
  | cons c t ih =>
    intro a h
    by_cases hc : p c
    · rw [List.dropWhile_cons_of_pos hc] at h
      exact ih a h
    · rw [List.dropWhile_cons_of_neg hc] at h
      simp at h
      subst h
      simpa using hc

theorem suffix_getLast? {α : Type} {l₁ l₂ : List α} (h : l₁ <:+ l₂) (hne : l₁ ≠ []) :
    l₂.getLast? = l₁.getLast? := by
  obtain ⟨t, rfl⟩ := h
  exact List.getLast?_append_of_ne_nil t hne

theorem drop_append_le {α : Type} {n : ℕ} (l₁ l₂ : List α) (h : n ≤ l₁.length) :
    (l₁ ++ l₂).drop n = l₁.drop n ++ l₂ := by
  conv_lhs => rw [← List.take_append_drop n l₁, List.append_assoc]
  rw [List.drop_left']
  rw [List.length_take]
  omega

theorem drop_append_ge {α : Type} {n : ℕ} (l₁ l₂ : List α) (h : l₁.length ≤ n) :
    (l₁ ++ l₂).drop n = l₂.drop (n - l₁.length) := by
  have h2 : n = l₁.length + (n - l₁.length) := by omega
  conv_lhs => rw [h2, ← List.drop_drop, List.drop_left]

theorem take_append_le {α : Type} {n : ℕ} (l₁ l₂ : List α) (h : n ≤ l₁.length) :
    (l₁ ++ l₂).take n = l₁.take n := by
  rw [List.take_append_eq_append_take]
  have : n - l₁.length = 0 := by omega
  rw [this]
  simp

/-! ### Lemmas about `trimRightNl` -/

theorem trimRightNl_eq_self {s : Bytes} (h : s.getLast? ≠ some '\n') :
    trimRightNl s = s := by
  unfold trimRightNl
  rw [dropWhile_eq_self_of_head, List.reverse_reverse]
  intro c hc
  rw [List.head?_reverse] at hc
  simp only [Bool.not_eq_true, beq_eq_false_iff_ne, ne_eq]
  intro hcn
  rw [hcn] at hc
  exact h hc

theorem trimRightNl_append_nl {s : Bytes} (h : s.getLast? ≠ some '\n') :
    trimRightNl (s ++ ['\n']) = s := by
  unfold trimRightNl
  simp only [List.reverse_append, List.reverse_cons, List.reverse_nil, List.nil_append,
    List.singleton_append]
  rw [List.dropWhile_cons_of_pos (by simp)]
  rw [dropWhile_eq_self_of_head, List.reverse_reverse]
  intro c hc
  rw [List.head?_reverse] at hc
  simp only [Bool.not_eq_true, beq_eq_false_iff_ne, ne_eq]
  intro hcn
  rw [hcn] at hc
  exact h hc

theorem trimRightNl_getLast (s : Bytes) : (trimRightNl s).getLast? ≠ some '\n' := by
  unfold trimRightNl
  rw [List.getLast?_reverse]
  intro h
  have := head?_dropWhile_false (· == '\n') s.reverse '\n' h
  simp at this

/-! ### Lemmas about `findSub` -/

theorem findSub_append_of_prefix {needle b : Bytes} (hb : needle <+: b) :
    ∀ a : Bytes, (∀ j < a.length, ¬ needle <+: (a ++ b).drop j) →
      findSub needle (a ++ b) = some a.length := by
  intro a
  induction a with
  | nil =>
    intro _
    simp only [List.nil_append, List.length_nil]
    cases b with
    | nil =>
      have : needle = [] := List.prefix_nil.mp hb
      simp [findSub, this]
    | cons c t => simp [findSub, hb]
  | cons c a' ih =>
    intro hj
    have h0 : ¬ needle <+: (c :: a' ++ b) := by
      have := hj 0 (by simp)
      simpa using this
    show findSub needle (c :: (a' ++ b)) = some (a'.length + 1)
    rw [findSub, if_neg (by simpa using h0)]
    have ihr : findSub needle (a' ++ b) = some a'.length := by
      apply ih
      intro j hjlt
      have := hj (j + 1) (by simp; omega)
      simpa using this
    rw [ihr]
    rfl

theorem not_prefix_drop_of_not_infix {needle A B : Bytes}
    (hA : ¬ needle <:+: A) (hnl : A.getLast? = some '\n') (hH : '\n' ∉ needle) :
    ∀ j < A.length, ¬ needle <+: (A ++ B).drop j := by
  intro j hj hpre
  rw [drop_append_le A B (Nat.le_of_lt hj)] at hpre
  have hdropne : A.drop j ≠ [] := by
    apply List.ne_nil_of_length_pos
    rw [List.length_drop]
    omega
  by_cases hlen : needle.length ≤ (A.drop j).length
  · -- the occurrence lies inside A, so needle would be an infix of A
    have h1 : needle = (A.drop j ++ B).take needle.length := List.prefix_iff_eq_take.mp hpre
    rw [take_append_le _ _ hlen] at h1
    have : needle <+: A.drop j := List.prefix_iff_eq_take.mpr h1
    exact hA (List.infix_iff_prefix_suffix.mpr ⟨A.drop j, this, List.drop_suffix j A⟩)
  · -- the occurrence straddles the end of A, so needle would contain the
    -- final newline of A
    have hsub : A.drop j <+: needle := by
      rcases List.prefix_or_prefix_of_prefix hpre (List.prefix_append (A.drop j) B) with h | h
      · exact absurd (h.length_le) (by omega)
      · exact h
    have hlast : (A.drop j).getLast? = some '\n' := by
      rw [suffix_getLast? (List.drop_suffix j A) hdropne] at hnl
      exact hnl
    exact hH (hsub.subset (List.mem_of_getLast?_eq_some hlast))

theorem infix_iff_exists_drop {needle l : Bytes} :
    needle <:+: l ↔ ∃ i, needle <+: l.drop i := by
  constructor
  · rintro ⟨s, t, rfl⟩
    refine ⟨s.length, ?_⟩
    rw [List.append_assoc, List.drop_left]
    exact List.prefix_append needle t
  · rintro ⟨i, t, ht⟩
    exact ⟨l.take i, t, by rw [List.append_assoc, ht, List.take_append_drop]⟩

theorem not_infix_append {needle A C : Bytes}
    (hA : ¬ needle <:+: A) (hC : ¬ needle <:+: C)
    (hnl : A = [] ∨ A.getLast? = some '\n') (hH : '\n' ∉ needle) :
    ¬ needle <:+: (A ++ C) := by
  intro h
  obtain ⟨i, hi⟩ := infix_iff_exists_drop.mp h
  by_cases hlt : i < A.length
  · rcases hnl with rfl | hnl
    · simp at hlt
    · exact not_prefix_drop_of_not_infix hA hnl hH i hlt hi
  · rw [drop_append_ge A C (by omega)] at hi
    exact hC (infix_iff_exists_drop.mpr ⟨i - A.length, hi⟩)

/-! ### Locating the next header start `"\n["` -/

theorem findSub_nlb_not_mem {x : Bytes} (hx : '\n' ∉ x) (r : Bytes) :
    findSub ['\n', '['] (x ++ r) = (findSub ['\n', '['] r).map (· + x.length) := by
  induction x with
  | nil =>
    simp only [List.nil_append, List.length_nil]
    cases findSub ['\n', '['] r <;> rfl
  | cons c x' ih =>
    have hc : c ≠ '\n' := fun h => hx (h ▸ List.mem_cons_self c x')
    have hx' : '\n' ∉ x' := fun h => hx (List.mem_cons_of_mem c h)
    show findSub ['\n', '['] (c :: (x' ++ r)) = _
    rw [findSub, if_neg, ih hx']
    · cases findSub ['\n', '['] r with
      | none => rfl
      | some n =>
        simp only [Option.map_some', List.length_cons, Option.some.injEq]
        omega
    · intro h
      rw [List.cons_prefix_cons] at h
      exact hc h.1.symm

theorem findSub_nlb_cons {r : Bytes} (h : r.head? ≠ some '[') :
    findSub ['\n', '['] ('\n' :: r) = (findSub ['\n', '['] r).map (· + 1) := by
  rw [findSub, if_neg]
  intro hp
  rw [List.cons_prefix_cons] at hp
  rcases hp with ⟨-, hp⟩
  cases r with
  | nil => exact absurd (List.prefix_nil.mp hp) (by simp)
  | cons c t =>
    rw [List.cons_prefix_cons] at hp
    exact h (by rw [hp.1.symm]; rfl)

theorem findSub_nlb_bracket (r : Bytes) :
    findSub ['\n', '['] ('\n' :: '[' :: r) = some 0 := by
  rw [findSub, if_pos]
  rw [List.cons_prefix_cons]
  exact ⟨rfl, List.cons_prefix_cons.mpr ⟨rfl, List.nil_prefix⟩⟩

theorem findSub_nlb_renderLines {bls : List Bytes} {C : Bytes}
    (hls : ∀ l ∈ bls, '\n' ∉ l ∧ l.head? ≠ some '[')
    (hC : C = [] ∨ C.head? = some '[') :
    findSub ['\n', '['] ('\n' :: (renderLines bls ++ C))
      = if C = [] then none else some (renderLines bls).length := by
  induction bls with
  | nil =>
    rcases hC with rfl | hC
    · simp [renderLines, findSub]
    · cases C with
      | nil => simp at hC
      | cons c t =>
        have : c = '[' := by simpa using hC
        subst this
        simp only [renderLines, List.nil_append, findSub_nlb_bracket]
        simp
  | cons l bls' ih =>
    have hl : '\n' ∉ l ∧ l.head? ≠ some '[' := hls l (List.mem_cons_self l bls')
    have hls' : ∀ m ∈ bls', '\n' ∉ m ∧ m.head? ≠ some '[' :=
      fun m hm => hls m (List.mem_cons_of_mem l hm)
    show findSub ['\n', '['] ('\n' :: ((l ++ '\n' :: renderLines bls') ++ C)) = _
    rw [List.append_assoc]
    rw [findSub_nlb_cons]
    · rw [findSub_nlb_not_mem hl.1]
      rw [List.cons_append]
      rw [ih hls']
      rcases eq_or_ne C [] with rfl | hCne
      · simp
      · rw [if_neg hCne, if_neg hCne]
        simp only [Option.map_some']
        congr 1
        simp only [renderLines, List.length_append, List.length_cons]
        omega
    · cases l with
      | nil => simp
      | cons a t =>
        rw [head?_append_left _ _ (by simp)]
        exact hl.2

/-! ### Shape of rendered headers, sections and files -/

theorem dateHeader_ne_nil (today : Bytes) : dateHeader today ≠ [] := by
  simp [dateHeader]

theorem nl_not_mem_dateHeader {today : Bytes} (h : '\n' ∉ today) :
    '\n' ∉ dateHeader today := by
  intro hm
  rcases List.mem_cons.mp hm with h1 | h1
  · exact absurd h1 (by decide)
  · rcases List.mem_append.mp h1 with h2 | h2
    · exact h h2
    · exact absurd (List.mem_singleton.mp h2) (by decide)

theorem dateHeader_getLast (today : Bytes) : (dateHeader today).getLast? = some ']' := by
  show (('[' :: today) ++ [']']).getLast? = some ']'
  exact List.getLast?_concat _

theorem getLast?_cons_of_ne_nil {α : Type} (a : α) {l : List α} (h : l ≠ []) :
    (a :: l).getLast? = l.getLast? := by
  show ([a] ++ l).getLast? = l.getLast?
  exact List.getLast?_append_of_ne_nil [a] h

theorem renderLines_shape {bls : List Bytes}
    (hls : ∀ l ∈ bls, l ≠ [] ∧ '\n' ∉ l) (hne : bls ≠ []) :
    ∃ Y, renderLines bls = Y ++ ['\n'] ∧ Y ≠ [] ∧ Y.getLast? ≠ some '\n' := by
  induction bls with
  | nil => exact absurd rfl hne
  | cons l rest ih =>
    have hl := hls l (List.mem_cons_self l rest)
    cases rest with
    | nil =>
      refine ⟨l, by simp [renderLines], hl.1, ?_⟩
      intro hlast
      exact hl.2 (List.mem_of_getLast?_eq_some hlast)
    | cons m rest' =>
      obtain ⟨Y', hY', hY'ne, hY'last⟩ :=
        ih (fun x hx => hls x (List.mem_cons_of_mem l hx)) (by simp)
      refine ⟨l ++ '\n' :: Y', ?_, by simp [hl.1], ?_⟩
      · show l ++ '\n' :: renderLines (m :: rest') = (l ++ '\n' :: Y') ++ ['\n']
        rw [hY']
        simp
      · rw [List.getLast?_append_of_ne_nil l (by simp)]
        rw [getLast?_cons_of_ne_nil _ hY'ne]
        exact hY'last

theorem renderSec_shape {s : LogSection}
    (h : ∀ l ∈ s.lines, l ≠ [] ∧ '\n' ∉ l) :
    ∃ Y, renderSec s = Y ++ ['\n'] ∧ Y ≠ [] ∧ Y.getLast? ≠ some '\n' := by
  rcases hl : s.lines with - | ⟨m, rest⟩
  · refine ⟨dateHeader s.date, ?_, dateHeader_ne_nil _, ?_⟩
    · show dateHeader s.date ++ '\n' :: renderLines s.lines = _
      rw [hl]
      simp [renderLines]
    · rw [dateHeader_getLast]
      simp
  · obtain ⟨Y', hY', hY'ne, hY'last⟩ := renderLines_shape (hl ▸ h) (by simp)
    refine ⟨dateHeader s.date ++ '\n' :: Y', ?_, by simp [dateHeader_ne_nil], ?_⟩
    · show dateHeader s.date ++ '\n' :: renderLines s.lines = _
      rw [hl, hY']
      simp
    · rw [List.getLast?_append_of_ne_nil _ (by simp)]
      rw [getLast?_cons_of_ne_nil _ hY'ne]
      exact hY'last

theorem renderSec_head (s : LogSection) : (renderSec s).head? = some '[' := rfl

theorem renderFile_append (xs ys : List LogSection) :
    renderFile (xs ++ ys) = renderFile xs ++ renderFile ys := by
  induction xs with
  | nil => rfl
  | cons s t ih =>
    show renderSec s ++ renderFile (t ++ ys) = (renderSec s ++ renderFile t) ++ renderFile ys
    rw [ih, List.append_assoc]

theorem renderFile_shape {secs : List LogSection}
    (hgood : ∀ s ∈ secs, ∀ l ∈ s.lines, l ≠ [] ∧ '\n' ∉ l) (hne : secs ≠ []) :
    ∃ Y, renderFile secs = Y ++ ['\n'] ∧ Y ≠ [] ∧ Y.getLast? ≠ some '\n'
      ∧ (renderFile secs).head? = some '[' := by
  induction secs with
  | nil => exact absurd rfl hne
  | cons s rest ih =>
    have hs := hgood s (List.mem_cons_self s rest)
    cases rest with
    | nil =>
      obtain ⟨Y, hY, hYne, hYlast⟩ := renderSec_shape hs
      refine ⟨Y, ?_, hYne, hYlast, ?_⟩
      · show renderSec s ++ renderFile [] = Y ++ ['\n']
        simpa [renderFile] using hY
      · show (renderSec s ++ renderFile []).head? = some '['
        simp only [renderFile, List.append_nil]
        exact renderSec_head s
    | cons u rest' =>
      obtain ⟨Yr, hYr, hYrne, hYrlast, hYrhead⟩ :=
        ih (fun x hx => hgood x (List.mem_cons_of_mem s hx)) (by simp)
      refine ⟨renderSec s ++ Yr, ?_, by simp [hYrne], ?_, ?_⟩
      · show renderSec s ++ renderFile (u :: rest') = (renderSec s ++ Yr) ++ ['\n']
        rw [hYr, List.append_assoc]
      · rw [List.getLast?_append_of_ne_nil _ hYrne]
        exact hYrlast
      · show (renderSec s ++ renderFile (u :: rest')).head? = some '['
        rw [head?_append_left _ _ ?_]
        · exact renderSec_head s
        · intro habs
          have : (renderSec s).head? = some '[' := renderSec_head s
          rw [habs] at this
          simp at this

/-! ### Shape of the freshly rendered section -/

theorem entrySuffix_getLast (s : CardStatus) : (entrySuffix s).getLast? = some '"' := by
  show (('"' :: ' ' :: '=' :: ' ' :: '"' :: statusStr s) ++ ['"']).getLast? = some '"'
  exact List.getLast?_concat _

theorem entryLine_getLast (w : Bytes) (s : CardStatus) :
    (entryLine w s).getLast? = some '"' := by
  show ('"' :: (escape w ++ entrySuffix s)).getLast? = some '"'
  rw [getLast?_cons_of_ne_nil _ (by simp [entrySuffix])]
  rw [List.getLast?_append_of_ne_nil _ (by simp [entrySuffix])]
  exact entrySuffix_getLast s

theorem entryLine_head (w : Bytes) (s : CardStatus) :
    (entryLine w s).head? = some '"' := rfl

theorem renderEntries_shape (es : List (Bytes × CardStatus)) (hne : es ≠ []) :
    ∃ Y, renderEntries es = Y ++ ['\n'] ∧ Y ≠ [] ∧ Y.getLast? ≠ some '\n' := by
  induction es with
  | nil => exact absurd rfl hne
  | cons p rest ih =>
    cases rest with
    | nil =>
      refine ⟨entryLine p.1 p.2, by simp [renderEntries], ?_, ?_⟩
      · intro habs
        have := entryLine_head p.1 p.2
        rw [habs] at this
        simp at this
      · rw [entryLine_getLast]
        simp
    | cons q rest' =>
      obtain ⟨Y', hY', hY'ne, hY'last⟩ := ih (by simp)
      refine ⟨entryLine p.1 p.2 ++ '\n' :: Y', ?_, ?_, ?_⟩
      · show entryLine p.1 p.2 ++ '\n' :: renderEntries (q :: rest') = _
        rw [hY']
        simp
      · simp
      · rw [List.getLast?_append_of_ne_nil _ (by simp)]
        rw [getLast?_cons_of_ne_nil _ hY'ne]
        exact hY'last

theorem renderSection_shape (today : Bytes) (entries : List (Bytes × CardStatus)) :
    ∃ Y, renderSection today entries = Y ++ ['\n'] ∧ Y ≠ [] ∧ Y.getLast? ≠ some '\n' := by
  cases entries with
  | nil =>
    refine ⟨dateHeader today, by simp [renderSection, renderEntries], dateHeader_ne_nil _, ?_⟩
    rw [dateHeader_getLast]
    simp
  | cons p rest =>
    obtain ⟨Y', hY', hY'ne, hY'last⟩ := renderEntries_shape (p :: rest) (by simp)
    refine ⟨dateHeader today ++ '\n' :: Y', ?_, by simp [dateHeader_ne_nil], ?_⟩
    · show dateHeader today ++ '\n' :: renderEntries (p :: rest) = _
      rw [hY']
      simp
    · rw [List.getLast?_append_of_ne_nil _ (by simp)]
      rw [getLast?_cons_of_ne_nil _ hY'ne]
      exact hY'last

/-! ### Decomposing `mergeContent` -/

/-- The tail of `appendToTOML` (src/main.go lines 213-218): ensure the kept
content ends in a newline, append the fresh section, and normalize to one
trailing newline. -/
def appendNew (existing today : Bytes) (entries : List (Bytes × CardStatus)) : Bytes :=
  let existing2 :=
    match existing.getLast? with
    | some c => if c = '\n' then existing else existing ++ ['\n']
    | none => existing
  trimRightNl (existing2 ++ renderSection today entries) ++ ['\n']

/-- The found-branch of `appendToTOML` (src/main.go lines 199-218): with the
first occurrence of the header substring at position `start`, delete from
`start` up to but excluding the next `"\n["` (or to end of file), trim
trailing newlines and hand the kept content to the append tail. -/
def spliceAt (existing today : Bytes) (start : ℕ)
    (entries : List (Bytes × CardStatus)) : Bytes :=
  let searchFrom := start + (dateHeader today).length
  let stop :=
    match findSub ['\n', '['] (existing.drop searchFrom) with
    | none => existing.length
    | some next => searchFrom + next + 1
  appendNew (trimRightNl (existing.take start ++ existing.drop stop)) today entries

theorem mergeContent_eq_appendNew {existing today : Bytes}
    {entries : List (Bytes × CardStatus)}
    (hfind : findSub (dateHeader today) existing = none) :
    mergeContent existing today entries = appendNew existing today entries := by
  simp only [mergeContent, appendNew, hfind]

theorem mergeContent_eq_spliceAt {existing today : Bytes} {start : ℕ}
    {entries : List (Bytes × CardStatus)}
    (hfind : findSub (dateHeader today) existing = some start) :
    mergeContent existing today entries = spliceAt existing today start entries := by
  simp only [mergeContent, spliceAt, appendNew, hfind]

theorem appendNew_nil (today : Bytes) (entries : List (Bytes × CardStatus)) :
    appendNew [] today entries = renderSection today entries := by
  obtain ⟨Yn, hYn, hYnne, hYnlast⟩ := renderSection_shape today entries
  simp only [appendNew, List.getLast?_nil, List.nil_append]
  rw [hYn, trimRightNl_append_nl hYnlast]

theorem appendNew_single_nl {P Y today : Bytes} {entries : List (Bytes × CardStatus)}
    (hP : P = Y ++ ['\n']) :
    appendNew P today entries = P ++ renderSection today entries := by
  obtain ⟨Yn, hYn, hYnne, hYnlast⟩ := renderSection_shape today entries
  have hlast : P.getLast? = some '\n' := by rw [hP]; exact List.getLast?_concat _
  have hlast2 : (P ++ Yn).getLast? ≠ some '\n' := by
    rw [List.getLast?_append_of_ne_nil _ hYnne]
    exact hYnlast
  simp only [appendNew, hlast]
  rw [if_pos trivial, hYn, ← List.append_assoc, trimRightNl_append_nl hlast2]

theorem appendNew_no_trailing {P today : Bytes} {entries : List (Bytes × CardStatus)}
    (hPne : P ≠ []) (hPlast : P.getLast? ≠ some '\n') :
    appendNew P today entries = P ++ '\n' :: renderSection today entries := by
  obtain ⟨Yn, hYn, hYnne, hYnlast⟩ := renderSection_shape today entries
  obtain ⟨c, hc⟩ : ∃ c, P.getLast? = some c := by
    cases hcc : P.getLast? with
    | none => exact absurd (List.getLast?_eq_none_iff.mp hcc) hPne
    | some c => exact ⟨c, rfl⟩
  have hcne : c ≠ '\n' := fun h => hPlast (h ▸ hc)
  have hlast2 : ((P ++ ['\n']) ++ Yn).getLast? ≠ some '\n' := by
    rw [List.getLast?_append_of_ne_nil _ hYnne]
    exact hYnlast
  simp only [appendNew, hc]
  rw [if_neg hcne, hYn, ← List.append_assoc, trimRightNl_append_nl hlast2]
  simp [List.append_assoc]

theorem spliceAt_eval_none {existing today : Bytes} {start : ℕ}
    {entries : List (Bytes × CardStatus)}
    (h : findSub ['\n', '['] (existing.drop (start + (dateHeader today).length)) = none) :
    spliceAt existing today start entries
      = appendNew (trimRightNl (existing.take start)) today entries := by
  simp only [spliceAt, h, List.drop_length, List.append_nil]

theorem spliceAt_eval_some {existing today : Bytes} {start next : ℕ}
    {entries : List (Bytes × CardStatus)}
    (h : findSub ['\n', '['] (existing.drop (start + (dateHeader today).length)) = some next) :
    spliceAt existing today start entries
      = appendNew (trimRightNl (existing.take start
          ++ existing.drop (start + (dateHeader today).length + next + 1))) today entries := by
  simp only [spliceAt, h]

theorem trimRightNl_nil : trimRightNl [] = [] := rfl

theorem findSub_nil_of_ne {needle : Bytes} (h : needle ≠ []) : findSub needle [] = none := by
  simp [findSub, h]

theorem mergeContent_nil (today : Bytes) (entries : List (Bytes × CardStatus)) :
    mergeContent [] today entries = renderSection today entries := by
  rw [mergeContent_eq_appendNew (findSub_nil_of_ne (dateHeader_ne_nil today))]
  exact appendNew_nil today entries

/-- The central splice computation: on a file of the form
`A ++ (today's section with body lines bls) ++ C`, with the header substring
not occurring in `A`, the merge keeps `A` and `C` verbatim and appends the
fresh section at the very end. -/
theorem mergeContent_split {A C today : Bytes} {bls : List Bytes}
    {entries : List (Bytes × CardStatus)}
    (hA : ¬ dateHeader today <:+: A)
    (hAshape : A = [] ∨ ∃ Y, A = Y ++ ['\n'] ∧ Y ≠ [] ∧ Y.getLast? ≠ some '\n')
    (hT : '\n' ∉ today)
    (hbls : ∀ l ∈ bls, '\n' ∉ l ∧ l.head? ≠ some '[')
    (hCshape : C = [] ∨ ((∃ Y, C = Y ++ ['\n'] ∧ Y ≠ [] ∧ Y.getLast? ≠ some '\n')
        ∧ C.head? = some '[')) :
    mergeContent (A ++ renderSec ⟨today, bls⟩ ++ C) today entries
      = (A ++ C) ++ renderSection today entries := by
  have hAnl : A = [] ∨ A.getLast? = some '\n' := by
    rcases hAshape with rfl | ⟨Y, rfl, -, -⟩
    · exact Or.inl rfl
    · exact Or.inr (List.getLast?_concat _)
  have hHn : '\n' ∉ dateHeader today := nl_not_mem_dateHeader hT
  have hChead : C = [] ∨ C.head? = some '[' := by
    rcases hCshape with rfl | ⟨-, h⟩
    · exact Or.inl rfl
    · exact Or.inr h
  have hassoc : A ++ renderSec ⟨today, bls⟩ ++ C
      = A ++ (dateHeader today ++ '\n' :: (renderLines bls ++ C)) := by
    show (A ++ (dateHeader today ++ '\n' :: renderLines bls)) ++ C = _
    simp [List.append_assoc]
  rw [hassoc]
  have hfind : findSub (dateHeader today)
      (A ++ (dateHeader today ++ '\n' :: (renderLines bls ++ C))) = some A.length := by
    apply findSub_append_of_prefix (List.prefix_append _ _)
    intro j hj
    rcases hAnl with rfl | hnl
    · simp at hj
    · exact not_prefix_drop_of_not_infix hA hnl hHn j hj
  rw [mergeContent_eq_spliceAt hfind]
  have hdrop : (A ++ (dateHeader today ++ '\n' :: (renderLines bls ++ C))).drop
      (A.length + (dateHeader today).length) = '\n' :: (renderLines bls ++ C) := by
    rw [← List.append_assoc]
    exact List.drop_left' (by simp)
  have htake : (A ++ (dateHeader today ++ '\n' :: (renderLines bls ++ C))).take A.length = A :=
    List.take_left A _
  rcases hCshape with rfl | ⟨⟨Yc, hYc, hYcne, hYclast⟩, hChead2⟩
  · -- no section follows: deletion runs to end of file
    have hnone : findSub ['\n', '[']
        ((A ++ (dateHeader today ++ '\n' :: (renderLines bls ++ ([] : Bytes)))).drop
          (A.length + (dateHeader today).length)) = none := by
      rw [hdrop, findSub_nlb_renderLines hbls hChead, if_pos rfl]
    rw [spliceAt_eval_none hnone, htake]
    rcases hAshape with rfl | ⟨Y, rfl, hYne, hYlast⟩
    · rw [trimRightNl_nil, appendNew_nil]
      simp
    · rw [trimRightNl_append_nl hYlast, appendNew_no_trailing hYne hYlast]
      simp [List.append_assoc]
  · -- a later section follows: deletion stops at its header
    have hCne : C ≠ [] := by
      rw [hYc]
      simp
    have hsome : findSub ['\n', '[']
        ((A ++ (dateHeader today ++ '\n' :: (renderLines bls ++ C))).drop
          (A.length + (dateHeader today).length)) = some (renderLines bls).length := by
      rw [hdrop, findSub_nlb_renderLines hbls hChead, if_neg hCne]
    rw [spliceAt_eval_some hsome, htake]
    have hdrop2 : (A ++ (dateHeader today ++ '\n' :: (renderLines bls ++ C))).drop
        (A.length + (dateHeader today).length + (renderLines bls).length + 1) = C := by
      have hsp : A ++ (dateHeader today ++ '\n' :: (renderLines bls ++ C))
          = ((A ++ dateHeader today) ++ ('\n' :: renderLines bls)) ++ C := by
        simp [List.append_assoc]
      rw [hsp]
      apply List.drop_left'
      simp only [List.length_append, List.length_cons]
      omega
    rw [hdrop2]
    have hACne : (A ++ Yc).getLast? ≠ some '\n' := by
      rw [List.getLast?_append_of_ne_nil _ hYcne]
      exact hYclast
    have h3 : trimRightNl (A ++ C) = A ++ Yc := by
      rw [hYc, ← List.append_assoc]
      exact trimRightNl_append_nl hACne
    rw [h3, appendNew_no_trailing (by simp [hYcne]) hACne, hYc]
    simp [List.append_assoc]

/-- `mergeContent_split` instantiated with rendered log files on both sides
of today's section. -/
theorem mergeContent_renderFile {pre post : List LogSection} {today : Bytes}
    {tbls : List Bytes} {entries : List (Bytes × CardStatus)}
    (hgood : ∀ s ∈ pre ++ post, ∀ l ∈ s.lines, l ≠ [] ∧ '\n' ∉ l)
    (hA : ¬ dateHeader today <:+: renderFile pre)
    (hT : '\n' ∉ today)
    (htb : ∀ l ∈ tbls, '\n' ∉ l ∧ l.head? ≠ some '[') :
    mergeContent (renderFile pre ++ renderSec ⟨today, tbls⟩ ++ renderFile post) today entries
      = (renderFile pre ++ renderFile post) ++ renderSection today entries := by
  have hpre : ∀ s ∈ pre, ∀ l ∈ s.lines, l ≠ [] ∧ '\n' ∉ l :=
    fun s hs => hgood s (List.mem_append.mpr (Or.inl hs))
  have hpost : ∀ s ∈ post, ∀ l ∈ s.lines, l ≠ [] ∧ '\n' ∉ l :=
    fun s hs => hgood s (List.mem_append.mpr (Or.inr hs))
  apply mergeContent_split hA ?_ hT htb ?_
  · cases pre with
    | nil => exact Or.inl rfl
    | cons s t =>
      obtain ⟨Y, hY, hYne, hYlast, -⟩ := renderFile_shape hpre (by simp)
      exact Or.inr ⟨Y, hY, hYne, hYlast⟩
  · cases post with
    | nil => exact Or.inl rfl
    | cons s t =>
      obtain ⟨Y, hY, hYne, hYlast, hhead⟩ := renderFile_shape hpost (by simp)
      exact Or.inr ⟨⟨Y, hY, hYne, hYlast⟩, hhead⟩

/-! ### Escaping -/

theorem escape_cons (c : Char) (t : Bytes) :
    escape (c :: t) = if c = '"' then '\\' :: '"' :: escape t else c :: escape t := rfl

theorem escape_eq_nil_iff (w : Bytes) : escape w = [] ↔ w = [] := by
  cases w with
  | nil => simp [escape]
  | cons c t =>
    rw [escape_cons]
    by_cases hc : c = '"' <;> simp [hc]

theorem escape_head_ne (w : Bytes) : (escape w).head? ≠ some '"' := by
  cases w with
  | nil => simp [escape]
  | cons c t =>
    rw [escape_cons]
    by_cases hc : c = '"' <;> simp [hc]

theorem mem_escape {w : Bytes} {c : Char} (h : c ∈ escape w) : c ∈ w ∨ c = '\\' := by
  induction w with
  | nil => simp [escape] at h
  | cons a t ih =>
    rw [escape_cons] at h
    by_cases ha : a = '"'
    · rw [if_pos ha] at h
      subst ha
      rcases List.mem_cons.mp h with rfl | h2
      · exact Or.inr rfl
      · rcases List.mem_cons.mp h2 with rfl | h3
        · exact Or.inl (List.mem_cons_self _ _)
        · rcases ih h3 with h4 | h4
          · exact Or.inl (List.mem_cons_of_mem _ h4)
          · exact Or.inr h4
    · rw [if_neg ha] at h
      rcases List.mem_cons.mp h with rfl | h2
      · exact Or.inl (List.mem_cons_self _ _)
      · rcases ih h2 with h4 | h4
        · exact Or.inl (List.mem_cons_of_mem _ h4)
        · exact Or.inr h4

theorem unescape_escape (w : Bytes) : unescape (escape w) = w := by
  induction w with
  | nil => rfl
  | cons c t ih =>
    rw [escape_cons]
    by_cases hc : c = '"'
    · rw [if_pos hc]
      subst hc
      rw [unescape, if_pos ⟨rfl, rfl⟩, ih]
    · rw [if_neg hc]
      cases he : escape t with
      | nil =>
        have ht : t = [] := (escape_eq_nil_iff t).mp he
        subst ht
        rfl
      | cons d r =>
        have hd : d ≠ '"' := by
          intro hdq
          apply escape_head_ne t
          rw [he, hdq]
          rfl
        rw [unescape, if_neg (fun hand => hd hand.2), ← he, ih]

theorem nl_not_mem_entrySuffix (s : CardStatus) : '\n' ∉ entrySuffix s := by
  cases s <;> decide

theorem nl_not_mem_entryLine {w : Bytes} (s : CardStatus) (hw : '\n' ∉ w) :
    '\n' ∉ entryLine w s := by
  intro h
  rcases List.mem_cons.mp h with h1 | h1
  · exact absurd h1 (by decide)
  · rcases List.mem_append.mp h1 with h2 | h2
    · rcases mem_escape h2 with h3 | h3
      · exact hw h3
      · exact absurd h3 (by decide)
    · exact nl_not_mem_entrySuffix s h2

theorem renderEntries_eq_renderLines (es : List (Bytes × CardStatus)) :
    renderEntries es = renderLines (es.map (fun p => entryLine p.1 p.2)) := by
  induction es with
  | nil => rfl
  | cons p t ih =>
    show entryLine p.1 p.2 ++ '\n' :: renderEntries t = _
    rw [ih]
    rfl

/-- Re-merging the same entries into a file that already ends with the
freshly rendered section reproduces the file byte for byte. -/
theorem mergeContent_idem_aux {P today : Bytes} {entries : List (Bytes × CardStatus)}
    (hP : ¬ dateHeader today <:+: P)
    (hPshape : P = [] ∨ ∃ Y, P = Y ++ ['\n'] ∧ Y ≠ [] ∧ Y.getLast? ≠ some '\n')
    (hT : '\n' ∉ today)
    (hw : ∀ p ∈ entries, '\n' ∉ p.1) :
    mergeContent (P ++ renderSection today entries) today entries
      = P ++ renderSection today entries := by
  have hsec : renderSection today entries
      = renderSec ⟨today, entries.map (fun p => entryLine p.1 p.2)⟩ := by
    show _ = dateHeader today ++ '\n' :: renderLines (entries.map (fun p => entryLine p.1 p.2))
    rw [renderSection, renderEntries_eq_renderLines]
  have hlines : ∀ l ∈ entries.map (fun p => entryLine p.1 p.2),
      '\n' ∉ l ∧ l.head? ≠ some '[' := by
    intro l hl
    obtain ⟨p, hp, rfl⟩ := List.mem_map.mp hl
    refine ⟨nl_not_mem_entryLine p.2 (hw p hp), ?_⟩
    rw [entryLine_head]
    simp
  have h := @mergeContent_split P [] today (entries.map (fun p => entryLine p.1 p.2))
    entries hP hPshape hT hlines (Or.inl rfl)
  simp only [List.append_nil] at h
  rw [hsec] at h ⊢
  exact h

/-! ### Round-trip lemmas for the spec-modelled reader -/

theorem linesOf_cons (c : Char) (t : Bytes) :
    linesOf (c :: t) = if c = '\n' then [] :: linesOf t
      else
        match linesOf t with
        | [] => [[c]]
        | l :: ls => (c :: l) :: ls := rfl

theorem linesOf_append_nl {x : Bytes} (hx : '\n' ∉ x) (r : Bytes) :
    linesOf (x ++ '\n' :: r) = x :: linesOf r := by
  induction x with
  | nil =>
    show linesOf ('\n' :: r) = [] :: linesOf r
    rw [linesOf_cons, if_pos rfl]
  | cons c x' ih =>
    have hc : c ≠ '\n' := fun h => hx (h ▸ List.mem_cons_self c x')
    have hx' : '\n' ∉ x' := fun h => hx (List.mem_cons_of_mem c h)
    show linesOf (c :: (x' ++ '\n' :: r)) = (c :: x') :: linesOf r
    rw [linesOf_cons, if_neg hc, ih hx']

theorem linesOf_renderEntries {es : List (Bytes × CardStatus)}
    (hw : ∀ p ∈ es, '\n' ∉ p.1) :
    linesOf (renderEntries es) = es.map (fun p => entryLine p.1 p.2) := by
  induction es with
  | nil => rfl
  | cons p t ih =>
    show linesOf (entryLine p.1 p.2 ++ '\n' :: renderEntries t) = _
    rw [linesOf_append_nl (nl_not_mem_entryLine p.2 (hw p (List.mem_cons_self p t)))]
    rw [ih (fun q hq => hw q (List.mem_cons_of_mem p hq))]
    rfl

theorem entrySuffix_not_suffix :
    ∀ s t : CardStatus, s ≠ t → ¬ entrySuffix s <:+ entrySuffix t := by
  intro s t
  cases s <;> cases t <;> decide

theorem entrySuffix_suffix_entryLine (w : Bytes) (s : CardStatus) :
    entrySuffix s <:+ entryLine w s := ⟨'"' :: escape w, rfl⟩

theorem parse_cond_false {w : Bytes} {s t : CardStatus} (hne : t ≠ s) :
    ¬ ((entryLine w s).head? = some '"' ∧ entrySuffix t <:+ entryLine w s
      ∧ (entrySuffix t).length + 1 ≤ (entryLine w s).length) := by
  rintro ⟨-, h2, -⟩
  rcases List.suffix_or_suffix_of_suffix h2 (entrySuffix_suffix_entryLine w s) with h | h
  · exact entrySuffix_not_suffix t s hne h
  · exact entrySuffix_not_suffix s t (Ne.symm hne) h

theorem parse_entryLine (w : Bytes) (s : CardStatus) :
    parseEntryLine (entryLine w s) = some (w, s) := by
  have harith : (entryLine w s).length - 1 - (entrySuffix s).length = (escape w).length := by
    simp only [entryLine, List.length_cons, List.length_append]
    omega
  have hpos : (entryLine w s).head? = some '"' ∧ entrySuffix s <:+ entryLine w s
      ∧ (entrySuffix s).length + 1 ≤ (entryLine w s).length := by
    refine ⟨rfl, entrySuffix_suffix_entryLine w s, ?_⟩
    simp only [entryLine, List.length_cons, List.length_append]
    omega
  have hval : ((entryLine w s).drop 1).take
      ((entryLine w s).length - 1 - (entrySuffix s).length) = escape w := by
    rw [harith]
    show (escape w ++ entrySuffix s).take (escape w).length = escape w
    exact List.take_left _ _
  cases s with
  | new =>
    simp only [parseEntryLine, statusList, List.findSome?_cons]
    rw [if_pos hpos, hval, unescape_escape]
  | learning =>
    simp only [parseEntryLine, statusList, List.findSome?_cons]
    rw [if_neg (parse_cond_false (by decide)), if_pos hpos, hval, unescape_escape]
  | review =>
    simp only [parseEntryLine, statusList, List.findSome?_cons]
    rw [if_neg (parse_cond_false (by decide)), if_neg (parse_cond_false (by decide)),
      if_pos hpos, hval, unescape_escape]
  | relearning =>
    simp only [parseEntryLine, statusList, List.findSome?_cons]
    rw [if_neg (parse_cond_false (by decide)), if_neg (parse_cond_false (by decide)),
      if_neg (parse_cond_false (by decide)), if_pos hpos, hval, unescape_escape]

theorem mapM_parse (es : List (Bytes × CardStatus)) :
    (es.map (fun p => entryLine p.1 p.2)).mapM parseEntryLine = some es := by
  induction es with
  | nil => rfl
  | cons p t ih =>
    rw [List.map_cons, List.mapM_cons, parse_entryLine, ih]
    rfl

theorem takeWhile_entryLines (es : List (Bytes × CardStatus)) :
    (es.map (fun p => entryLine p.1 p.2)).takeWhile (fun l => !(l.head? == some '['))
      = es.map (fun p => entryLine p.1 p.2) := by
  induction es with
  | nil => rfl
  | cons p t ih =>
    rw [List.map_cons, List.takeWhile_cons_of_pos, ih]
    rw [entryLine_head]
    rfl

/-- Rendering entries into a fresh file, locating the section by its header
and parsing its entry lines recovers the entries exactly. -/
theorem roundTrip_eq {today : Bytes} {entries : List (Bytes × CardStatus)}
    (hT : '\n' ∉ today) (hw : ∀ p ∈ entries, '\n' ∉ p.1) :
    roundTrip today entries = some entries := by
  unfold roundTrip locateSection
  rw [mergeContent_nil]
  have hlines : linesOf (renderSection today entries)
      = dateHeader today :: entries.map (fun p => entryLine p.1 p.2) := by
    show linesOf (dateHeader today ++ '\n' :: renderEntries entries) = _
    rw [linesOf_append_nl (nl_not_mem_dateHeader hT), linesOf_renderEntries hw]
  rw [hlines]
  rw [List.findIdx?_cons, if_pos (by simp)]
  show ((entries.map (fun p => entryLine p.1 p.2)).takeWhile
      (fun l => !(l.head? == some '['))).mapM parseEntryLine = some entries
  rw [takeWhile_entryLines, mapM_parse]

/-! ### Remaining small helpers -/

theorem lookupKV_mem {k : String} {v : JsonVal} :
    ∀ {l : List (String × JsonVal)}, lookupKV k l = some v → (k, v) ∈ l := by
  intro l
  induction l with
  | nil => intro h; simp [lookupKV] at h
  | cons p t ih =>
    intro h
    obtain ⟨a, b⟩ := p
    rw [lookupKV] at h
    by_cases hk : a = k
    · rw [if_pos hk] at h
      injection h with hbv
      subst hk
      subst hbv
      exact List.mem_cons_self _ _
    · rw [if_neg hk] at h
      exact List.mem_cons_of_mem _ (ih h)

theorem gfv_ne_imp {fields : List (String × JsonVal)} {name : String}
    (h : getFieldValue fields name ≠ "") :
    ∃ v, lookupKV name fields = some v ∧ (name, v) ∈ fields := by
  cases hl : lookupKV name fields with
  | none =>
    exfalso
    apply h
    rw [getFieldValue, hl]
  | some v => exact ⟨v, rfl, lookupKV_mem hl⟩

theorem infix_append_right {l x y : Bytes} (h : l <:+: x) : l <:+: x ++ y := by
  obtain ⟨a, b, rfl⟩ := h
  exact ⟨a, b ++ y, by simp⟩

theorem renderSec_infix {s : LogSection} :
    ∀ {secs : List LogSection}, s ∈ secs → renderSec s <:+: renderFile secs := by
  intro secs
  induction secs with
  | nil => intro h; simp at h
  | cons u t ih =>
    intro h
    rcases List.mem_cons.mp h with rfl | h2
    · show renderSec s <:+: renderSec s ++ renderFile t
      exact infix_append_right (List.infix_refl _)
    · show renderSec s <:+: renderSec u ++ renderFile t
      exact (ih h2).trans (List.suffix_append _ _).isInfix

theorem appendNew_shape (X today : Bytes) (entries : List (Bytes × CardStatus)) :
    ∃ Y, appendNew X today entries = Y ++ ['\n'] ∧ Y.getLast? ≠ some '\n' :=
  ⟨_, rfl, trimRightNl_getLast _⟩

theorem switchStatus_eq_spec : ∀ n : ℤ, switchStatus n = statusOfCodeSpec n := by
  intro n
  rcases n with (_ | _ | _ | _ | m) | m
  · decide
  · decide
  · decide
  · decide
  · show CardStatus.review = _
    have h0 : ¬ (Int.ofNat (m + 4) = 0) := by rw [Int.ofNat_eq_natCast]; omega
    have h1 : ¬ (Int.ofNat (m + 4) = 1) := by rw [Int.ofNat_eq_natCast]; omega
    have h2 : ¬ (Int.ofNat (m + 4) = 2) := by rw [Int.ofNat_eq_natCast]; omega
    have h3 : ¬ (Int.ofNat (m + 4) = 3) := by rw [Int.ofNat_eq_natCast]; omega
    unfold statusOfCodeSpec
    rw [if_neg h0, if_neg h1, if_neg h2, if_neg h3]
  · show CardStatus.review = _
    have h0 : ¬ (Int.negSucc m = 0) := by rw [Int.negSucc_eq]; omega
    have h1 : ¬ (Int.negSucc m = 1) := by rw [Int.negSucc_eq]; omega
    have h2 : ¬ (Int.negSucc m = 2) := by rw [Int.negSucc_eq]; omega
    have h3 : ¬ (Int.negSucc m = 3) := by rw [Int.negSucc_eq]; omega
    unfold statusOfCodeSpec
    rw [if_neg h0, if_neg h1, if_neg h2, if_neg h3]

/-! ### Claims C5, C6, C8, C9, C10 -/

/-- C5: status classification maps the truncated numeric `queue` code as
0 to new, 1 to learning, 2 to review, 3 to relearning and any other numeric
code to review; an absent or non-numeric `queue` falls back to the numeric
`type` field, and if neither is present and numeric the result is review.
`classifyStatusSpec` states that table in the claim's words;
`getCardStatus` is the code's switch. -/
theorem C5_status_classification (cardInfo : List (String × JsonVal)) :
    getCardStatus cardInfo = classifyStatusSpec cardInfo := by
  unfold getCardStatus classifyStatusSpec
  cases queueOrType cardInfo with
  | none => rfl
  | some q => exact switchStatus_eq_spec (truncQ q)

/-- C6: the word is the `Word` field's value when that is non-empty; when it
is empty or absent, the first field (in iteration order) with a non-empty
string value is used as fallback; and extraction fails, making the caller
skip the card, exactly when no field has a non-empty string value. -/
theorem C6_word_extraction (fields : List (String × JsonVal)) :
    (∀ w : String, getFieldValue fields "Word" = w → w ≠ "" →
        extractWord fields = some w)
    ∧ (getFieldValue fields "Word" = "" →
        ∀ p : String × JsonVal,
          fields.find? (fun q => getFieldValue fields q.1 != "") = some p →
          extractWord fields = some (getFieldValue fields p.1))
    ∧ (extractWord fields = none ↔ ∀ p ∈ fields, getFieldValue fields p.1 = "") := by
  refine ⟨?_, ?_, ?_⟩
  · intro w hWeq hne
    subst hWeq
    simp only [extractWord]
    rw [if_neg hne]
  · intro hW p hfind
    simp only [extractWord]
    rw [if_pos hW, hfind]
  · by_cases hW : getFieldValue fields "Word" = ""
    · simp only [extractWord]
      rw [if_pos hW]
      cases hf : fields.find? (fun q => getFieldValue fields q.1 != "") with
      | none =>
        constructor
        · intro _ p hp
          have h2 := List.find?_eq_none.mp hf p hp
          simpa using h2
        · intro _
          rfl
      | some p =>
        constructor
        · intro habs
          exact absurd habs (by simp)
        · intro hall
          have hmem := List.mem_of_find?_eq_some hf
          have hp := List.find?_some hf
          have hne2 : getFieldValue fields p.1 ≠ "" := by simpa using hp
          exact absurd (hall p hmem) hne2
    · obtain ⟨v, hl, hmem⟩ := gfv_ne_imp hW
      apply iff_of_false
      · simp only [extractWord]
        rw [if_neg hW]
        simp
      · intro hall
        exact hW (hall ("Word", v) hmem)

/-- Witness for C6 at a concrete card: a non-empty `Word` field is returned
verbatim. -/
theorem C6_witness :
    extractWord [("Word", JsonVal.obj [("value", JsonVal.str "hello")]),
      ("Definition", JsonVal.obj [("value", JsonVal.str "greeting")])] = some "hello" :=
  (C6_word_extraction _).1 "hello" (by decide) (by decide)

/-- C8: merging into an absent file (treated as empty content) yields
exactly the one freshly rendered section with all entries; concretely, for
the entries map `{日本語 ↦ review}` on 2024-01-01 the file body is the
rendered section of scenario A. -/
theorem C8_empty_file :
    (∀ (today : Bytes) (entries : List (Bytes × CardStatus)),
        mergeFile none today entries = renderSection today entries)
    ∧ mergeFile none "2024-01-01".data [("日本語".data, CardStatus.review)]
        = "[2024-01-01]\n\"日本語\" = \"review\"\n".data := by
  constructor
  · intro today entries
    exact mergeContent_nil today entries
  · decide

/-- C9: whatever the prior content and entries, the written content ends
with exactly one trailing newline: it is some text not ending in a newline,
followed by one newline. -/
theorem C9_single_trailing_newline (existing today : Bytes)
    (entries : List (Bytes × CardStatus)) :
    ∃ Y, mergeContent existing today entries = Y ++ ['\n']
      ∧ Y.getLast? ≠ some '\n' := by
  cases hf : findSub (dateHeader today) existing with
  | none =>
    rw [mergeContent_eq_appendNew hf]
    exact appendNew_shape _ today entries
  | some i =>
    rw [mergeContent_eq_spliceAt hf]
    exact appendNew_shape _ today entries

/-- C10: the RPC client never inspects the HTTP status code: any response
whose body decodes to an envelope with a null error yields the result as
success, whatever the status (500 included); it fails exactly on transport
error, on an undecodable body, or on a non-null error field. -/
theorem C10_status_ignored :
    (∀ (status : ℕ) (result : JsonVal),
        invokeAnkiConnect (some ⟨status, .envelope result none⟩) = .ok result)
    ∧ (∀ resp : Option HttpResponse,
        (∃ e, invokeAnkiConnect resp = .error e)
          ↔ (resp = none ∨ (∃ st, resp = some ⟨st, .malformed⟩)
              ∨ (∃ st r e, resp = some ⟨st, .envelope r (some e)⟩))) := by
  constructor
  · intro status result
    rfl
  · intro resp
    cases resp with
    | none => exact iff_of_true ⟨_, rfl⟩ (Or.inl rfl)
    | some r =>
      obtain ⟨st, body⟩ := r
      cases body with
      | malformed => exact iff_of_true ⟨_, rfl⟩ (Or.inr (Or.inl ⟨st, rfl⟩))
      | envelope res err =>
        cases err with
        | none =>
          apply iff_of_false
          · rintro ⟨e, he⟩
            simp [invokeAnkiConnect] at he
          · rintro (h | ⟨st', h⟩ | ⟨st', r', e', h⟩) <;> simp at h
        | some e =>
          exact iff_of_true ⟨_, rfl⟩ (Or.inr (Or.inr ⟨st, res, e, rfl⟩))

/-! ### Claims C1, C2, C3, C4, C7 -/

/-- C1 counterexample: on
`[2024-01-01]\n"a" = "new"\n[2024-01-02]\n"b" = "review"\n`, merging
`{c ↦ new}` for 2024-01-01 does not insert the replacement at the position
where the old section began (which would give
`[2024-01-01]\n"c" = "new"\n[2024-01-02]\n"b" = "review"\n`, the 2024-01-02
section still following): the code appends the replacement at the end, so
the section that followed now precedes it. -/
theorem C1_counterexample :
    mergeContent "[2024-01-01]\n\"a\" = \"new\"\n[2024-01-02]\n\"b\" = \"review\"\n".data
        "2024-01-01".data [("c".data, CardStatus.new)]
      = "[2024-01-02]\n\"b\" = \"review\"\n[2024-01-01]\n\"c\" = \"new\"\n".data
    ∧ "[2024-01-02]\n\"b\" = \"review\"\n[2024-01-01]\n\"c\" = \"new\"\n".data
      ≠ "[2024-01-01]\n\"c\" = \"new\"\n[2024-01-02]\n\"b\" = \"review\"\n".data :=
  ⟨by decide, by decide⟩

/-- C1 (amended): when the existing file is prior sections, then today's
section, then later sections, and today's bracketed date string does not
occur in the earlier content, merge deletes today's old header line and its
entry lines (up to but not including the next header line or end of file)
and appends the freshly rendered replacement section at the end of the
file, so sections which followed the old section now precede the
replacement. -/
theorem C1_section_replacement {pre post : List LogSection} {today : Bytes}
    {tbls : List Bytes} {entries : List (Bytes × CardStatus)}
    (hgood : ∀ s ∈ pre ++ post, ∀ l ∈ s.lines, l ≠ [] ∧ '\n' ∉ l)
    (hA : ¬ dateHeader today <:+: renderFile pre)
    (hT : '\n' ∉ today)
    (htb : ∀ l ∈ tbls, '\n' ∉ l ∧ l.head? ≠ some '[') :
    mergeContent (renderFile pre ++ renderSec ⟨today, tbls⟩ ++ renderFile post)
        today entries
      = (renderFile pre ++ renderFile post) ++ renderSection today entries :=
  mergeContent_renderFile hgood hA hT htb

/-- Witness for C1 at a concrete file: the old today-section is replaced,
the later section survives, and the replacement lands at the end. -/
theorem C1_witness :
    (∀ s ∈ ([] : List LogSection)
        ++ [⟨"2024-01-02".data, ["\"b\" = \"review\"".data]⟩],
        ∀ l ∈ s.lines, l ≠ [] ∧ '\n' ∉ l)
    ∧ ¬ dateHeader "2024-01-01".data <:+: renderFile []
    ∧ '\n' ∉ "2024-01-01".data
    ∧ (∀ l ∈ ["\"a\" = \"new\"".data], '\n' ∉ l ∧ l.head? ≠ some '[')
    ∧ mergeContent (renderFile []
          ++ renderSec ⟨"2024-01-01".data, ["\"a\" = \"new\"".data]⟩
          ++ renderFile [⟨"2024-01-02".data, ["\"b\" = \"review\"".data]⟩])
        "2024-01-01".data [("c".data, CardStatus.new)]
      = (renderFile [] ++ renderFile [⟨"2024-01-02".data, ["\"b\" = \"review\"".data]⟩])
          ++ renderSection "2024-01-01".data [("c".data, CardStatus.new)] :=
  ⟨by decide, by decide, by decide, by decide,
    C1_section_replacement (by decide) (by decide) (by decide) (by decide)⟩

/-- C2 counterexample: the file consists of the single section
`[2024-01-02]\n"x [2024-01-01] y" = "new"\n`, whose header differs from
today's date 2024-01-01; yet merging `{c ↦ new}` corrupts it (the entry
line is truncated at the in-word occurrence of `[2024-01-01]`), so the
section is not left unchanged byte-for-byte. -/
theorem C2_counterexample :
    mergeContent "[2024-01-02]\n\"x [2024-01-01] y\" = \"new\"\n".data
        "2024-01-01".data [("c".data, CardStatus.new)]
      = "[2024-01-02]\n\"x \n[2024-01-01]\n\"c\" = \"new\"\n".data
    ∧ ¬ ("[2024-01-02]\n\"x [2024-01-01] y\" = \"new\"\n".data
        <:+: mergeContent "[2024-01-02]\n\"x [2024-01-01] y\" = \"new\"\n".data
          "2024-01-01".data [("c".data, CardStatus.new)]) :=
  ⟨by decide, by decide⟩

/-- C2 (amended): provided today's bracketed date string does not occur as
a substring of the content before today's section, merge keeps every
section whose header differs from today's date byte-for-byte in the result
(the sections after today's old section move up to close the gap, and the
rebuilt section is appended at the end). -/
theorem C2_other_sections_preserved {pre post : List LogSection} {today : Bytes}
    {tbls : List Bytes} {entries : List (Bytes × CardStatus)}
    (hgood : ∀ s ∈ pre ++ post, ∀ l ∈ s.lines, l ≠ [] ∧ '\n' ∉ l)
    (hA : ¬ dateHeader today <:+: renderFile pre)
    (hT : '\n' ∉ today)
    (htb : ∀ l ∈ tbls, '\n' ∉ l ∧ l.head? ≠ some '[') :
    mergeContent (renderFile pre ++ renderSec ⟨today, tbls⟩ ++ renderFile post)
        today entries
      = (renderFile pre ++ renderFile post) ++ renderSection today entries
    ∧ ∀ s ∈ pre ++ post,
        renderSec s <:+: mergeContent
          (renderFile pre ++ renderSec ⟨today, tbls⟩ ++ renderFile post)
          today entries := by
  have h := @mergeContent_renderFile pre post today tbls entries hgood hA hT htb
  refine ⟨h, ?_⟩
  intro s hs
  rw [h]
  have h1 : renderSec s <:+: renderFile (pre ++ post) := renderSec_infix hs
  rw [renderFile_append] at h1
  exact infix_append_right h1

/-- Witness for C2 at a concrete two-section file around today's section. -/
theorem C2_witness :
    (∀ s ∈ [(⟨"2024-01-02".data, ["\"b\" = \"review\"".data]⟩ : LogSection)]
        ++ [⟨"2024-01-03".data, ["\"d\" = \"learning\"".data]⟩],
        ∀ l ∈ s.lines, l ≠ [] ∧ '\n' ∉ l)
    ∧ ¬ dateHeader "2024-01-01".data
        <:+: renderFile [⟨"2024-01-02".data, ["\"b\" = \"review\"".data]⟩]
    ∧ '\n' ∉ "2024-01-01".data
    ∧ (∀ l ∈ ["\"a\" = \"new\"".data], '\n' ∉ l ∧ l.head? ≠ some '[')
    ∧ mergeContent (renderFile [⟨"2024-01-02".data, ["\"b\" = \"review\"".data]⟩]
          ++ renderSec ⟨"2024-01-01".data, ["\"a\" = \"new\"".data]⟩
          ++ renderFile [⟨"2024-01-03".data, ["\"d\" = \"learning\"".data]⟩])
        "2024-01-01".data [("c".data, CardStatus.new)]
      = (renderFile [⟨"2024-01-02".data, ["\"b\" = \"review\"".data]⟩]
          ++ renderFile [⟨"2024-01-03".data, ["\"d\" = \"learning\"".data]⟩])
          ++ renderSection "2024-01-01".data [("c".data, CardStatus.new)] :=
  ⟨by decide, by decide, by decide, by decide,
    (C2_other_sections_preserved (by decide) (by decide) (by decide) (by decide)).1⟩

/-- C3 counterexample: in
`[2024-01-02]\n"x [2024-01-01] y" = "new"\n[2024-01-01]\n"a" = "new"\n`
the bracketed date also occurs inside a quoted word, before the real
header line.  The first occurrence is at position 16, in the middle of an
entry line (the character before it is a space, not a newline), and merge
splices there: the entry line of the other section is truncated while the
old entry `"a" = "new"` of the real 2024-01-01 section survives, so the
exact header line did not begin the replaced section. -/
theorem C3_counterexample :
    findSub (dateHeader "2024-01-01".data)
        "[2024-01-02]\n\"x [2024-01-01] y\" = \"new\"\n[2024-01-01]\n\"a\" = \"new\"\n".data
      = some 16
    ∧ (("[2024-01-02]\n\"x [2024-01-01] y\" = \"new\"\n[2024-01-01]\n\"a\" = \"new\"\n".data.drop 15).head?
        = some ' ')
    ∧ mergeContent
        "[2024-01-02]\n\"x [2024-01-01] y\" = \"new\"\n[2024-01-01]\n\"a\" = \"new\"\n".data
        "2024-01-01".data [("c".data, CardStatus.new)]
      = "[2024-01-02]\n\"x [2024-01-01]\n\"a\" = \"new\"\n[2024-01-01]\n\"c\" = \"new\"\n".data
    ∧ ("\"a\" = \"new\"".data <:+: mergeContent
        "[2024-01-02]\n\"x [2024-01-01] y\" = \"new\"\n[2024-01-01]\n\"a\" = \"new\"\n".data
        "2024-01-01".data [("c".data, CardStatus.new)]) :=
  ⟨by decide, by decide, by decide, by decide⟩

/-- C3 (amended): merge locates the start of the replaced region as the
first occurrence of the substring `[YYYY-MM-DD]` anywhere in the content
(`bytes.Index`), not as an exact header-line match: whenever that first
occurrence is at position `start` — line start or mid-line — the result is
the splice at `start`. -/
theorem C3_substring_location (existing today : Bytes)
    (entries : List (Bytes × CardStatus)) (start : ℕ)
    (hfind : findSub (dateHeader today) existing = some start) :
    mergeContent existing today entries = spliceAt existing today start entries :=
  mergeContent_eq_spliceAt hfind

/-- Witness for C3 at the counterexample file: the first occurrence is at
position 16, inside a quoted word, and merge splices there. -/
theorem C3_witness :
    findSub (dateHeader "2024-01-01".data)
        "[2024-01-02]\n\"x [2024-01-01] y\" = \"new\"\n[2024-01-01]\n\"a\" = \"new\"\n".data
      = some 16
    ∧ mergeContent
        "[2024-01-02]\n\"x [2024-01-01] y\" = \"new\"\n[2024-01-01]\n\"a\" = \"new\"\n".data
        "2024-01-01".data [("c".data, CardStatus.new)]
      = spliceAt
        "[2024-01-02]\n\"x [2024-01-01] y\" = \"new\"\n[2024-01-01]\n\"a\" = \"new\"\n".data
        "2024-01-01".data 16 [("c".data, CardStatus.new)] :=
  ⟨by decide, C3_substring_location _ _ _ 16 (by decide)⟩

/-- C4: merge is idempotent for a fixed date and fixed entries on a
well-formed log file (today's bracketed date occurring only as its own
header, words free of embedded newlines): the second merge replaces the
section it just wrote and reproduces the file — in particular the final
section content — byte for byte. -/
theorem C4_merge_idempotent {pre post : List LogSection} {today : Bytes}
    {tbls : List Bytes} {entries : List (Bytes × CardStatus)}
    (hgood : ∀ s ∈ pre ++ post, ∀ l ∈ s.lines, l ≠ [] ∧ '\n' ∉ l)
    (hA : ¬ dateHeader today <:+: renderFile pre)
    (hApost : ¬ dateHeader today <:+: renderFile post)
    (hT : '\n' ∉ today)
    (htb : ∀ l ∈ tbls, '\n' ∉ l ∧ l.head? ≠ some '[')
    (hw : ∀ p ∈ entries, '\n' ∉ p.1) :
    mergeContent
        (mergeContent (renderFile pre ++ renderSec ⟨today, tbls⟩ ++ renderFile post)
          today entries) today entries
      = mergeContent (renderFile pre ++ renderSec ⟨today, tbls⟩ ++ renderFile post)
          today entries := by
  have hpre : ∀ s ∈ pre, ∀ l ∈ s.lines, l ≠ [] ∧ '\n' ∉ l :=
    fun s hs => hgood s (List.mem_append.mpr (Or.inl hs))
  rw [mergeContent_renderFile hgood hA hT htb]
  have hnl : renderFile pre = [] ∨ (renderFile pre).getLast? = some '\n' := by
    cases pre with
    | nil => exact Or.inl rfl
    | cons s t =>
      obtain ⟨Y, hY, -, -, -⟩ := renderFile_shape hpre (by simp)
      right
      rw [hY]
      exact List.getLast?_concat _
  have hP : ¬ dateHeader today <:+: renderFile pre ++ renderFile post :=
    not_infix_append hA hApost hnl (nl_not_mem_dateHeader hT)
  have hshape : renderFile pre ++ renderFile post = []
      ∨ ∃ Y, renderFile pre ++ renderFile post = Y ++ ['\n']
          ∧ Y ≠ [] ∧ Y.getLast? ≠ some '\n' := by
    rw [← renderFile_append]
    rcases eq_or_ne (pre ++ post) [] with hpp | hpp
    · rw [hpp]
      exact Or.inl rfl
    · obtain ⟨Y, hY, hYne, hYl, -⟩ := renderFile_shape hgood hpp
      exact Or.inr ⟨Y, hY, hYne, hYl⟩
  exact mergeContent_idem_aux hP hshape hT hw

/-- Witness for C4 at a concrete file: merging twice equals merging once. -/
theorem C4_witness :
    (∀ s ∈ [(⟨"2024-01-02".data, ["\"b\" = \"review\"".data]⟩ : LogSection)]
        ++ ([] : List LogSection), ∀ l ∈ s.lines, l ≠ [] ∧ '\n' ∉ l)
    ∧ ¬ dateHeader "2024-01-01".data
        <:+: renderFile [⟨"2024-01-02".data, ["\"b\" = \"review\"".data]⟩]
    ∧ ¬ dateHeader "2024-01-01".data <:+: renderFile []
    ∧ '\n' ∉ "2024-01-01".data
    ∧ (∀ l ∈ ["\"a\" = \"new\"".data], '\n' ∉ l ∧ l.head? ≠ some '[')
    ∧ (∀ p ∈ [("c".data, CardStatus.new)], '\n' ∉ p.1)
    ∧ mergeContent
        (mergeContent (renderFile [⟨"2024-01-02".data, ["\"b\" = \"review\"".data]⟩]
            ++ renderSec ⟨"2024-01-01".data, ["\"a\" = \"new\"".data]⟩
            ++ renderFile []) "2024-01-01".data [("c".data, CardStatus.new)])
        "2024-01-01".data [("c".data, CardStatus.new)]
      = mergeContent (renderFile [⟨"2024-01-02".data, ["\"b\" = \"review\"".data]⟩]
            ++ renderSec ⟨"2024-01-01".data, ["\"a\" = \"new\"".data]⟩
            ++ renderFile []) "2024-01-01".data [("c".data, CardStatus.new)] :=
  ⟨by decide, by decide, by decide, by decide, by decide, by decide,
    C4_merge_idempotent (by decide) (by decide) (by decide) (by decide)
      (by decide) (by decide)⟩

/-- C7 counterexample: a word containing an embedded newline breaks the
line structure of the rendered section, so the round-trip does not recover
the entries. -/
theorem C7_counterexample :
    roundTrip "2024-01-01".data [(['a', '\n', 'b'], CardStatus.review)]
      ≠ some [(['a', '\n', 'b'], CardStatus.review)] := by decide

/-- C7 (amended): for every entries map whose words contain no newline
character — double quotes, escaped as `\"`, are fine — rendering the
entries into a dated section and re-locating that section by its header
and parsing its entry lines recovers exactly the same entries, in order,
without corrupting the file's section structure. -/
theorem C7_round_trip {today : Bytes} {entries : List (Bytes × CardStatus)}
    (hT : '\n' ∉ today) (hw : ∀ p ∈ entries, '\n' ∉ p.1) :
    roundTrip today entries = some entries :=
  roundTrip_eq hT hw

/-- Witness for C7: scenario E, a word containing double quotes,
round-trips exactly. -/
theorem C7_witness :
    roundTrip "2024-01-01".data [("he said \"hi\"".data, CardStatus.review)]
      = some [("he said \"hi\"".data, CardStatus.review)] :=
  C7_round_trip (by decide) (by decide)

end AnkiStats
